import Mathlib

/-!
Shallow embedding of `libfsutils` (header `src/include/fsutils.h`).

The repository ships only the C header: declarations plus doc comments.
The implementations behind `extern` are not part of `src/`, so every
operation below is modelled from the specification (and the header's own
doc comments), as close to its words as possible.

Data model (spec §3): a `Path` is a sequence of path segments; files are
byte sequences; directories are finite lists of named entries.
-/

namespace FsUtils

/-- A path is an immutable sequence of path segments (spec §3 "Path").
The string `"/a/b/src"` is the segment list `["", "a", "b", "src"]`. -/
abbrev Path := List String

/-- A filesystem node: a regular file with byte content and a flag saying
whether the process can read it (copying an unreadable file fails with a
permission error), or a directory with a list of named entries. -/
inductive FsNode where
  | file (content : List Nat) (readable : Bool)
  | dir (entries : List (String × FsNode))

/-- Modelled from the spec: the base name of a path is its final non-empty
segment; a root path like "/" has no valid base name (spec §4.1). -/
def basename (p : Path) : Option String :=
  (p.filter (fun s => s ≠ "")).getLast?

/-- Modelled from the spec: `fs_utils_destination_directory` (PathComposer,
spec §4.1) returns the destination root joined with the base name of the
source directory, or signals an invalid-argument failure (`NULL` in the C
header) when the source has no valid base name.  The implementation behind
the header's `extern` declaration is not in `src/`. -/
def fs_utils_destination_directory (source_dir destination_dir : Path) :
    Option Path :=
  (basename source_dir).map (fun b => destination_dir ++ [b])

/-- Modelled from the spec: `fs_utils_is_folder_empty` (FolderInspector,
spec §6) is true iff the directory has zero entries; it fails (`none`)
if the path is not a directory. -/
def fs_utils_is_folder_empty : FsNode → Option Bool
  | .file _ _ => none
  | .dir es => some es.isEmpty

/-- Modelled from the spec: `FolderCleaner.clean` over a directory's entry
list (spec §6): delete entries one by one; fail fatally on the first entry
it cannot delete, leaving the remaining entries untouched.  `canDelete` is
the environment's deletability oracle (permissions).  Returns the entries
left in the directory and the C return code (0 success, 1 failure). -/
def cleanupEntries (canDelete : String × FsNode → Bool) :
    List (String × FsNode) → List (String × FsNode) × Int
  | [] => ([], 0)
  | e :: rest =>
    if canDelete e then cleanupEntries canDelete rest
    else (e :: rest, 1)

/-- Modelled from the spec: `fs_utils_cleanup_folder` (spec §6) deletes
every direct and transitive child of the folder but never the folder
itself; it fails (`non-zero`) if the path is not a directory or an entry
cannot be deleted.  The folder node is returned (never deleted), with
whatever entries remain. -/
def fs_utils_cleanup_folder (canDelete : String × FsNode → Bool) :
    FsNode → FsNode × Int
  | .file c r => (.file c r, 1)
  | .dir es =>
    match cleanupEntries canDelete es with
    | (rest, code) => (.dir rest, code)

/-- Modelled from the spec: `fs_utils_head` (Utf8BoundedReader raw mode,
spec §4.3): read from the file at offset 0, stopping at `limit` bytes or
end of file; return the raw byte buffer and its exact length, or signal
failure (`NULL`, no length stored) when the path does not exist or is
unreadable, which the model renders as `none`. -/
def fs_utils_head (file : Option (List Nat)) (limit : Nat) :
    Option (List Nat × Nat) :=
  file.map (fun content =>
    let buffer := content.take limit
    (buffer, buffer.length))

/-! ### TreeCopier (spec §4.2) -/

mutual

/-- Modelled from the spec: copy one node of the source tree.  A readable
file is copied byte for byte; an unreadable file fails with a permission
error naming the entry (given by `name`); a directory is created and its
entries copied recursively, stopping at the first failure.  Returns the
node actually materialised at the destination (`none` when nothing was
created) and the first error, if any. -/
def copyNode (name : String) : FsNode → Option FsNode × Option String
  | .file c r =>
    if r then (some (.file c r), none)
    else (none, some name)
  | .dir es =>
    match copyEntries es with
    | (es', err) => (some (.dir es'), err.map (fun e => name ++ "/" ++ e))

/-- Modelled from the spec: copy a directory's entries in order; on the
first failing entry the walk stops and reports that entry's error, and the
entries already copied are left in place (no rollback, spec §4.2 partial
failure policy). -/
def copyEntries : List (String × FsNode) → List (String × FsNode) × Option String
  | [] => ([], none)
  | (n, node) :: rest =>
    match copyNode n node with
    | (some node', none) =>
      match copyEntries rest with
      | (es, e) => ((n, node') :: es, e)
    | (some node', some err) => ([(n, node')], some err)
    | (none, some err) => ([], some err)
    | (none, none) => ([], none)

end

/-- Modelled from the spec: `fs_utils_copy_directory` (TreeCopier, spec
§4.2).  The destination root is given by its path `dstPath` and its current
entry list `dstEntries`; the source directory by its path `srcPath` and its
tree `srcTree`.  The composed destination is `dstPath` joined with the base
name of `srcPath`; if it already exists the operation fails immediately
with an "already exists" error and performs no I/O.  Otherwise the tree is
copied; on success the resolved destination path is returned, on partial
failure the error of the first failing entry.  The result is the updated
entry list of the destination root paired with the tagged outcome
(CopyResult, spec §3: success path or error description). -/
def fs_utils_copy_directory (srcPath : Path) (srcTree : FsNode)
    (dstPath : Path) (dstEntries : List (String × FsNode)) :
    List (String × FsNode) × Except String Path :=
  match basename srcPath with
  | none => (dstEntries, .error "invalid argument: source has no base name")
  | some name =>
    if (dstEntries.map Prod.fst).contains name then
      (dstEntries, .error ("already exists: " ++ name))
    else
      match copyNode name srcTree with
      | (some copied, none) =>
        (dstEntries ++ [(name, copied)], .ok (dstPath ++ [name]))
      | (some partialNode, some err) =>
        (dstEntries ++ [(name, partialNode)], .error err)
      | (none, some err) => (dstEntries, .error err)
      | (none, none) => (dstEntries, .error "impossible")

/-! ### Utf8BoundedReader, text modes (spec §4.3)

UTF-8 decoding with maximal-subpart substitution: each maximal subpart of
an ill-formed subsequence is replaced by exactly one U+FFFD (spec §4.3 and
glossary "Maximal subpart substitution").  Codepoints are plain naturals.
-/

/-- `c` is a Unicode scalar value (a codepoint that is not a surrogate). -/
def isScalar (c : Nat) : Bool := c < 0xD800 || (0xE000 ≤ c && c < 0x110000)

/-- Lower bound (inclusive) of the admissible second byte for lead `b`. -/
def cont2lo (b : Nat) : Nat := if b = 0xE0 then 0xA0 else if b = 0xF0 then 0x90 else 0x80

/-- Upper bound (exclusive) of the admissible second byte for lead `b`. -/
def cont2hi (b : Nat) : Nat := if b = 0xED then 0xA0 else if b = 0xF4 then 0x90 else 0xC0

mutual

/-- Modelled from the spec: UTF-8 decoding with maximal-subpart
substitution (spec §4.3 text mode).  Well-formed sequences decode to their
scalar value; each maximal subpart of an ill-formed subsequence — a lone
lead byte, a truncated multi-byte sequence, or a stray byte — is replaced
by exactly one U+FFFD, never one per byte and never dropped. -/
def utf8DecodeLossy : List Nat → List Nat
  | [] => []
  | b :: rest =>
    if b < 0x80 then b :: utf8DecodeLossy rest
    else if 0xC2 ≤ b ∧ b ≤ 0xDF then
      decodeCont (b - 0xC0) 0x80 0xC0 1 rest
    else if 0xE0 ≤ b ∧ b ≤ 0xEF then
      decodeCont (b - 0xE0) (cont2lo b) (cont2hi b) 2 rest
    else if 0xF0 ≤ b ∧ b ≤ 0xF4 then
      decodeCont (b - 0xF0) (cont2lo b) (cont2hi b) 3 rest
    else 0xFFFD :: utf8DecodeLossy rest
termination_by l => (l.length, 0)

/-- Continuation state of the lossy decoder: `need` continuation bytes are
still expected, the next one in `[lo, hi)`, later ones in `[0x80, 0xC0)`;
`acc` is the value accumulated so far.  On a missing or out-of-range byte
the sequence consumed so far is a maximal subpart of an ill-formed
subsequence and yields exactly one U+FFFD, decoding resuming at the
offending byte. -/
def decodeCont (acc lo hi : Nat) : Nat → List Nat → List Nat
  | 0, bs => acc :: utf8DecodeLossy bs
  | _ + 1, [] => [0xFFFD]
  | n + 1, b :: rest =>
    if lo ≤ b ∧ b < hi then
      decodeCont (acc * 0x40 + (b - 0x80)) 0x80 0xC0 n rest
    else 0xFFFD :: utf8DecodeLossy (b :: rest)
termination_by _ bs => (bs.length, 1)

end

/-- UTF-8 encoding of a single Unicode scalar value. -/
def utf8EncodeChar (c : Nat) : List Nat :=
  if c < 0x80 then [c]
  else if c < 0x800 then [0xC0 + c / 0x40, 0x80 + c % 0x40]
  else if c < 0x10000 then
    [0xE0 + c / 0x1000, 0x80 + (c / 0x40) % 0x40, 0x80 + c % 0x40]
  else
    [0xF0 + c / 0x40000, 0x80 + (c / 0x1000) % 0x40, 0x80 + (c / 0x40) % 0x40,
      0x80 + c % 0x40]

/-- UTF-8 encoding of a sequence of Unicode scalar values. -/
def utf8Encode (cs : List Nat) : List Nat := (cs.map utf8EncodeChar).flatten

/-- Modelled from the spec: `fs_utils_head_to_string` (Utf8BoundedReader
text mode, spec §4.3): read the first `limit` bytes and decode them as
UTF-8 with maximal-subpart substitution; `none` (C `NULL`) when the file
cannot be read.  The result is the decoded codepoint sequence. -/
def fs_utils_head_to_string (file : Option (List Nat)) (limit : Nat) :
    Option (List Nat) :=
  file.map (fun content => utf8DecodeLossy (content.take limit))

/-- Modelled from the spec: `fs_utils_head_to_string_with_message`
(Utf8BoundedReader text mode with message, spec §4.3): as
`fs_utils_head_to_string`, but the caller-supplied truncation message
(given as its codepoint sequence) is appended iff the file's total size
exceeds `limit` bytes. -/
def fs_utils_head_to_string_with_message (file : Option (List Nat))
    (limit : Nat) (truncation_message : List Nat) : Option (List Nat) :=
  file.map (fun content =>
    utf8DecodeLossy (content.take limit) ++
      (if limit < content.length then truncation_message else []))

/-- Every file in the tree is readable (no permission errors anywhere). -/
def allReadable : FsNode → Prop
  | .file _ r => r = true
  | .dir es => ∀ e ∈ es, allReadable e.2
decreasing_by
  have h := List.sizeOf_lt_of_mem (show e ∈ es by assumption)
  obtain ⟨n, nd⟩ := e
  simp at h ⊢
  omega

/-- `t` is a truncated (incomplete) well-formed multi-byte UTF-8 sequence:
a nonempty proper prefix of some well-formed 2-, 3- or 4-byte sequence. -/
def IsIncomplete : List Nat → Prop
  | [b] => (0xC2 ≤ b ∧ b ≤ 0xDF) ∨ (0xE0 ≤ b ∧ b ≤ 0xEF) ∨
      (0xF0 ≤ b ∧ b ≤ 0xF4)
  | [b, b1] => ((0xE0 ≤ b ∧ b ≤ 0xEF) ∨ (0xF0 ≤ b ∧ b ≤ 0xF4)) ∧
      cont2lo b ≤ b1 ∧ b1 < cont2hi b
  | [b, b1, b2] => (0xF0 ≤ b ∧ b ≤ 0xF4) ∧
      (cont2lo b ≤ b1 ∧ b1 < cont2hi b) ∧ 0x80 ≤ b2 ∧ b2 < 0xC0
  | _ => False

/-- Invariant of the decoder's continuation state: any completion of the
expected continuation bytes yields a Unicode scalar value. -/
def contInv (acc lo hi : Nat) : Nat → Prop
  | 0 => isScalar acc = true
  | n + 1 => ∀ b, lo ≤ b → b < hi →
      contInv (acc * 0x40 + (b - 0x80)) 0x80 0xC0 n

/-! ### Theorems -/

theorem utf8DecodeLossy_nil : utf8DecodeLossy [] = [] := by
  rw [utf8DecodeLossy]

theorem utf8DecodeLossy_ascii (b : Nat) (rest : List Nat) (h : b < 0x80) :
    utf8DecodeLossy (b :: rest) = b :: utf8DecodeLossy rest := by
  rw [utf8DecodeLossy, if_pos h]

theorem utf8DecodeLossy_lead2 (b : Nat) (rest : List Nat)
    (h : 0xC2 ≤ b ∧ b ≤ 0xDF) :
    utf8DecodeLossy (b :: rest) = decodeCont (b - 0xC0) 0x80 0xC0 1 rest := by
  rw [utf8DecodeLossy, if_neg (by omega), if_pos h]

theorem utf8DecodeLossy_lead3 (b : Nat) (rest : List Nat)
    (h : 0xE0 ≤ b ∧ b ≤ 0xEF) :
    utf8DecodeLossy (b :: rest) =
      decodeCont (b - 0xE0) (cont2lo b) (cont2hi b) 2 rest := by
  rw [utf8DecodeLossy, if_neg (by omega), if_neg (by omega), if_pos h]

theorem utf8DecodeLossy_lead4 (b : Nat) (rest : List Nat)
    (h : 0xF0 ≤ b ∧ b ≤ 0xF4) :
    utf8DecodeLossy (b :: rest) =
      decodeCont (b - 0xF0) (cont2lo b) (cont2hi b) 3 rest := by
  rw [utf8DecodeLossy, if_neg (by omega), if_neg (by omega), if_neg (by omega),
    if_pos h]

theorem utf8DecodeLossy_bad (b : Nat) (rest : List Nat)
    (h : ¬(b < 0x80) ∧ ¬(0xC2 ≤ b ∧ b ≤ 0xDF) ∧ ¬(0xE0 ≤ b ∧ b ≤ 0xEF) ∧
      ¬(0xF0 ≤ b ∧ b ≤ 0xF4)) :
    utf8DecodeLossy (b :: rest) = 0xFFFD :: utf8DecodeLossy rest := by
  rw [utf8DecodeLossy, if_neg h.1, if_neg h.2.1, if_neg h.2.2.1, if_neg h.2.2.2]

theorem decodeCont_zero (acc lo hi : Nat) (bs : List Nat) :
    decodeCont acc lo hi 0 bs = acc :: utf8DecodeLossy bs := by
  rw [decodeCont]

theorem decodeCont_nil (acc lo hi n : Nat) :
    decodeCont acc lo hi (n + 1) [] = [0xFFFD] := by
  rw [decodeCont]

theorem decodeCont_ok (acc lo hi n b : Nat) (rest : List Nat)
    (h : lo ≤ b ∧ b < hi) :
    decodeCont acc lo hi (n + 1) (b :: rest) =
      decodeCont (acc * 0x40 + (b - 0x80)) 0x80 0xC0 n rest := by
  rw [decodeCont, if_pos h]

theorem decodeCont_fail (acc lo hi n b : Nat) (rest : List Nat)
    (h : ¬(lo ≤ b ∧ b < hi)) :
    decodeCont acc lo hi (n + 1) (b :: rest) =
      0xFFFD :: utf8DecodeLossy (b :: rest) := by
  rw [decodeCont, if_neg h]

set_option maxRecDepth 4000 in
theorem utf8DecodeLossy_encodeChar (c : Nat) (h : isScalar c = true)
    (rest : List Nat) :
    utf8DecodeLossy (utf8EncodeChar c ++ rest) = c :: utf8DecodeLossy rest := by
  have hs : c < 0xD800 ∨ (0xE000 ≤ c ∧ c < 0x110000) := by
    simpa [isScalar, Bool.or_eq_true, Bool.and_eq_true, decide_eq_true_eq] using h
  unfold utf8EncodeChar
  by_cases h1 : c < 0x80
  · rw [if_pos h1]
    simpa using utf8DecodeLossy_ascii c rest h1
  · rw [if_neg h1]
    by_cases h2 : c < 0x800
    · rw [if_pos h2]
      simp only [List.cons_append, List.nil_append]
      rw [utf8DecodeLossy_lead2 _ _ (by omega),
        decodeCont_ok _ _ _ _ _ _ (by omega), decodeCont_zero]
      congr 1
      omega
    · rw [if_neg h2]
      by_cases h3 : c < 0x10000
      · rw [if_pos h3]
        simp only [List.cons_append, List.nil_append]
        rw [utf8DecodeLossy_lead3 _ _ (by omega)]
        rw [decodeCont_ok _ _ _ _ _ _ ?hcond]
        case hcond =>
          unfold cont2lo cont2hi
          constructor <;> split_ifs <;> omega
        rw [decodeCont_ok _ _ _ _ _ _ (by omega), decodeCont_zero]
        congr 1
        omega
      · rw [if_neg h3]
        simp only [List.cons_append, List.nil_append]
        rw [utf8DecodeLossy_lead4 _ _ (by omega)]
        rw [decodeCont_ok _ _ _ _ _ _ ?hcond4]
        case hcond4 =>
          unfold cont2lo cont2hi
          constructor <;> split_ifs <;> omega
        rw [decodeCont_ok _ _ _ _ _ _ (by omega),
          decodeCont_ok _ _ _ _ _ _ (by omega), decodeCont_zero]
        congr 1
        omega

theorem utf8DecodeLossy_encode_append (cs : List Nat)
    (h : ∀ c ∈ cs, isScalar c = true) (suffix : List Nat) :
    utf8DecodeLossy (utf8Encode cs ++ suffix) = cs ++ utf8DecodeLossy suffix := by
  induction cs with
  | nil => simp [utf8Encode]
  | cons c cs ih =>
    have hc : isScalar c = true := h c (by simp)
    have hrest : ∀ x ∈ cs, isScalar x = true := fun x hx => h x (by simp [hx])
    simp only [utf8Encode, List.map_cons, List.flatten_cons, List.append_assoc]
    rw [utf8DecodeLossy_encodeChar c hc]
    have : (List.map utf8EncodeChar cs).flatten = utf8Encode cs := rfl
    rw [this, ih hrest]
    simp

theorem cont2lo_ge (b : Nat) : 0x80 ≤ cont2lo b := by
  unfold cont2lo; split_ifs <;> omega

theorem cont2hi_le (b : Nat) : cont2hi b ≤ 0xC0 := by
  unfold cont2hi; split_ifs <;> omega

theorem utf8DecodeLossy_incomplete (t : List Nat) (h : IsIncomplete t) :
    utf8DecodeLossy t = [0xFFFD] := by
  match t with
  | [] => exact absurd h (by simp [IsIncomplete])
  | [b] =>
    rcases h with h2 | h3 | h4
    · rw [utf8DecodeLossy_lead2 _ _ h2, decodeCont_nil]
    · rw [utf8DecodeLossy_lead3 _ _ h3, decodeCont_nil]
    · rw [utf8DecodeLossy_lead4 _ _ h4, decodeCont_nil]
  | [b, b1] =>
    obtain ⟨h34, hb1⟩ := h
    rcases h34 with h3 | h4
    · rw [utf8DecodeLossy_lead3 _ _ h3, decodeCont_ok _ _ _ _ _ _ hb1,
        decodeCont_nil]
    · rw [utf8DecodeLossy_lead4 _ _ h4, decodeCont_ok _ _ _ _ _ _ hb1,
        decodeCont_nil]
  | [b, b1, b2] =>
    obtain ⟨h4, hb1, hb2⟩ := h
    rw [utf8DecodeLossy_lead4 _ _ h4, decodeCont_ok _ _ _ _ _ _ hb1,
      decodeCont_ok _ _ _ _ _ _ hb2, decodeCont_nil]
  | _ :: _ :: _ :: _ :: _ => exact absurd h (by simp [IsIncomplete])

theorem utf8DecodeLossy_incomplete_append (t bs : List Nat) (h : IsIncomplete t)
    (hb : ∀ b ∈ bs.head?, b < 0x80 ∨ 0xC2 ≤ b) :
    utf8DecodeLossy (t ++ bs) = 0xFFFD :: utf8DecodeLossy bs := by
  match bs with
  | [] => rw [List.append_nil, utf8DecodeLossy_incomplete t h, utf8DecodeLossy_nil]
  | b :: bs' =>
    have hb' : b < 0x80 ∨ 0xC2 ≤ b := hb b (by simp)
    have hfail : ∀ lo hi, 0x80 ≤ lo → hi ≤ 0xC0 → ¬(lo ≤ b ∧ b < hi) := by
      intro lo hi h1 h2; omega
    match t with
    | [] => exact absurd h (by simp [IsIncomplete])
    | [b0] =>
      rcases h with h2 | h3 | h4
      · rw [List.cons_append, List.nil_append,
          utf8DecodeLossy_lead2 _ _ h2,
          decodeCont_fail _ _ _ _ _ _ (hfail _ _ (by omega) (by omega))]
      · rw [List.cons_append, List.nil_append,
          utf8DecodeLossy_lead3 _ _ h3,
          decodeCont_fail _ _ _ _ _ _ (hfail _ _ (cont2lo_ge b0) (cont2hi_le b0))]
      · rw [List.cons_append, List.nil_append,
          utf8DecodeLossy_lead4 _ _ h4,
          decodeCont_fail _ _ _ _ _ _ (hfail _ _ (cont2lo_ge b0) (cont2hi_le b0))]
    | [b0, b1] =>
      obtain ⟨h34, hb1⟩ := h
      rcases h34 with h3 | h4
      · rw [show ([b0, b1] ++ b :: bs') = b0 :: b1 :: b :: bs' from rfl,
          utf8DecodeLossy_lead3 _ _ h3, decodeCont_ok _ _ _ _ _ _ hb1,
          decodeCont_fail _ _ _ _ _ _ (hfail _ _ (by omega) (by omega))]
      · rw [show ([b0, b1] ++ b :: bs') = b0 :: b1 :: b :: bs' from rfl,
          utf8DecodeLossy_lead4 _ _ h4, decodeCont_ok _ _ _ _ _ _ hb1,
          decodeCont_fail _ _ _ _ _ _ (hfail _ _ (by omega) (by omega))]
    | [b0, b1, b2] =>
      obtain ⟨h4, hb1, hb2⟩ := h
      rw [show ([b0, b1, b2] ++ b :: bs') = b0 :: b1 :: b2 :: b :: bs' from rfl,
        utf8DecodeLossy_lead4 _ _ h4, decodeCont_ok _ _ _ _ _ _ hb1,
        decodeCont_ok _ _ _ _ _ _ hb2,
        decodeCont_fail _ _ _ _ _ _ (hfail _ _ (by omega) (by omega))]
    | _ :: _ :: _ :: _ :: _ => exact absurd h (by simp [IsIncomplete])

theorem isScalar_replacement : isScalar 0xFFFD = true := by decide

theorem valid_aux : ∀ n : Nat,
    (∀ bs : List Nat, bs.length ≤ n →
      ∀ c ∈ utf8DecodeLossy bs, isScalar c = true) ∧
    (∀ acc lo hi need (bs : List Nat), bs.length ≤ n →
      contInv acc lo hi need →
      ∀ c ∈ decodeCont acc lo hi need bs, isScalar c = true) := by
  intro n
  induction n with
  | zero =>
    constructor
    · intro bs hlen c hc
      rw [List.length_eq_zero.mp (Nat.le_zero.mp hlen)] at hc
      rw [utf8DecodeLossy_nil] at hc
      exact absurd hc (by simp)
    · intro acc lo hi need bs hlen hinv c hc
      rw [List.length_eq_zero.mp (Nat.le_zero.mp hlen)] at hc
      match need with
      | 0 =>
        rw [decodeCont_zero, utf8DecodeLossy_nil] at hc
        simp at hc
        rw [hc]
        exact hinv
      | m + 1 =>
        rw [decodeCont_nil] at hc
        simp at hc
        rw [hc]
        exact isScalar_replacement
  | succ n ih =>
    have A : ∀ bs : List Nat, bs.length ≤ n + 1 →
        ∀ c ∈ utf8DecodeLossy bs, isScalar c = true := by
      intro bs hlen c hc
      match bs with
      | [] =>
        rw [utf8DecodeLossy_nil] at hc
        exact absurd hc (by simp)
      | b :: rest =>
        have hrest : rest.length ≤ n := by simpa using hlen
        by_cases h1 : b < 0x80
        · rw [utf8DecodeLossy_ascii _ _ h1] at hc
          rcases List.mem_cons.mp hc with rfl | hc
          · simp [isScalar]; omega
          · exact ih.1 rest hrest c hc
        · by_cases h2 : 0xC2 ≤ b ∧ b ≤ 0xDF
          · rw [utf8DecodeLossy_lead2 _ _ h2] at hc
            refine ih.2 _ _ _ _ rest hrest ?_ c hc
            intro b1 hb1lo hb1hi
            simp only [contInv, isScalar]
            simp only [Bool.or_eq_true, Bool.and_eq_true, decide_eq_true_eq]
            omega
          · by_cases h3 : 0xE0 ≤ b ∧ b ≤ 0xEF
            · rw [utf8DecodeLossy_lead3 _ _ h3] at hc
              refine ih.2 _ _ _ _ rest hrest ?_ c hc
              intro b1 hb1lo hb1hi
              intro b2 hb2lo hb2hi
              simp only [contInv, isScalar]
              simp only [Bool.or_eq_true, Bool.and_eq_true, decide_eq_true_eq]
              revert hb1lo hb1hi
              unfold cont2lo cont2hi
              split_ifs <;> omega
            · by_cases h4 : 0xF0 ≤ b ∧ b ≤ 0xF4
              · rw [utf8DecodeLossy_lead4 _ _ h4] at hc
                refine ih.2 _ _ _ _ rest hrest ?_ c hc
                intro b1 hb1lo hb1hi
                intro b2 hb2lo hb2hi
                intro b3 hb3lo hb3hi
                simp only [contInv, isScalar]
                simp only [Bool.or_eq_true, Bool.and_eq_true, decide_eq_true_eq]
                revert hb1lo hb1hi
                unfold cont2lo cont2hi
                split_ifs <;> omega
              · rw [utf8DecodeLossy_bad _ _ ⟨h1, h2, h3, h4⟩] at hc
                rcases List.mem_cons.mp hc with rfl | hc
                · exact isScalar_replacement
                · exact ih.1 rest hrest c hc
    refine ⟨A, ?_⟩
    intro acc lo hi need bs hlen hinv c hc
    match need, bs with
    | 0, bs =>
      rw [decodeCont_zero] at hc
      rcases List.mem_cons.mp hc with rfl | hc
      · exact hinv
      · exact A bs hlen c hc
    | m + 1, [] =>
      rw [decodeCont_nil] at hc
      simp at hc
      rw [hc]
      exact isScalar_replacement
    | m + 1, b :: rest =>
      by_cases hr : lo ≤ b ∧ b < hi
      · rw [decodeCont_ok _ _ _ _ _ _ hr] at hc
        exact ih.2 _ _ _ _ rest (by simpa using hlen) (hinv b hr.1 hr.2) c hc
      · rw [decodeCont_fail _ _ _ _ _ _ hr] at hc
        rcases List.mem_cons.mp hc with rfl | hc
        · exact isScalar_replacement
        · exact A (b :: rest) hlen c hc

theorem utf8DecodeLossy_valid (bs : List Nat) :
    ∀ c ∈ utf8DecodeLossy bs, isScalar c = true :=
  (valid_aux bs.length).1 bs le_rfl

mutual

theorem copyNode_ok : ∀ t, allReadable t → ∀ s, copyNode s t = (some t, none)
  | .file c r, h, s => by
    have hr : r = true := by simpa [allReadable] using h
    subst hr
    simp [copyNode]
  | .dir es, h, s => by
    have he : ∀ e ∈ es, allReadable e.2 := by
      simpa [allReadable] using h
    simp [copyNode, copyEntries_ok es he]

theorem copyEntries_ok : ∀ es, (∀ e ∈ es, allReadable e.2) →
    copyEntries es = (es, none)
  | [], _ => by simp [copyEntries]
  | (n, t) :: rest, h => by
    have h1 := copyNode_ok t (h (n, t) (by simp)) n
    have h2 := copyEntries_ok rest (fun e he => h e (by simp [he]))
    simp [copyEntries, h1, h2]

end

theorem copyNode_ne_none_none : ∀ (t : FsNode) (s : String),
    copyNode s t ≠ (none, none)
  | .file c r, s => by cases r <;> simp [copyNode]
  | .dir es, s => by
    rcases hq : copyEntries es with ⟨es', err⟩
    simp [copyNode, hq]

mutual

theorem copyNode_none : ∀ (t : FsNode) (s : String),
    (copyNode s t).2 = none → copyNode s t = (some t, none)
  | .file c r, s, h => by
    cases r
    · simp [copyNode] at h
    · simp [copyNode]
  | .dir es, s, h => by
    rcases hq : copyEntries es with ⟨es', err⟩
    rw [copyNode] at h ⊢
    rw [hq] at h ⊢
    simp at h
    subst h
    rw [copyEntries_none es (by rw [hq])] at hq
    simp at hq
    simp [hq]

theorem copyEntries_none : ∀ es : List (String × FsNode),
    (copyEntries es).2 = none → copyEntries es = (es, none)
  | [], _ => by simp [copyEntries]
  | (n, t) :: rest, h => by
    rcases hq : copyNode n t with ⟨on', oe⟩
    match on', oe with
    | some node', none =>
      rw [copyEntries] at h ⊢
      rw [hq] at h ⊢
      simp at h
      have hrec := copyEntries_none rest h
      have hnd : copyNode n t = (some t, none) := copyNode_none t n (by rw [hq])
      rw [hq] at hnd
      simp at hnd
      subst hnd
      simp [hrec]
    | some node', some e0 =>
      rw [copyEntries] at h
      rw [hq] at h
      simp at h
    | none, some e0 =>
      rw [copyEntries] at h
      rw [hq] at h
      simp at h
    | none, none => exact absurd hq (copyNode_ne_none_none t n)

end

theorem copyEntries_fail : ∀ (es : List (String × FsNode)) (err : String),
    (copyEntries es).2 = some err →
    ∃ pre x post, es = pre ++ x :: post ∧
      (∀ e ∈ pre, (copyNode e.1 e.2).2 = none) ∧
      (copyNode x.1 x.2).2 = some err ∧
      (copyEntries es).1 =
        pre ++ (copyNode x.1 x.2).1.toList.map (fun nd => (x.1, nd)) := by
  intro es
  induction es with
  | nil => intro err h; simp [copyEntries] at h
  | cons e rest ih =>
    intro err h
    obtain ⟨n, t⟩ := e
    rcases hq : copyNode n t with ⟨on', oe⟩
    match on', oe with
    | some node', none =>
      rw [copyEntries] at h
      rw [hq] at h
      simp at h
      obtain ⟨pre, x, post, hsplit, hpre, hx, hbuilt⟩ := ih err h
      have hnd : copyNode n t = (some t, none) := copyNode_none t n (by rw [hq])
      rw [hq] at hnd
      simp at hnd
      subst hnd
      refine ⟨(n, node') :: pre, x, post, by simp [hsplit], ?_, hx, ?_⟩
      · intro e he
        rcases List.mem_cons.mp he with rfl | he
        · simpa using congrArg Prod.snd hq
        · exact hpre e he
      · rw [copyEntries]
        rw [hq]
        simp [hbuilt]
    | some node', some e0 =>
      rw [copyEntries] at h ⊢
      rw [hq] at h ⊢
      simp at h
      refine ⟨[], (n, t), rest, rfl, by simp, ?_, ?_⟩
      · rw [hq]; simpa using h
      · simp [hq]
    | none, some e0 =>
      rw [copyEntries] at h ⊢
      rw [hq] at h ⊢
      simp at h
      refine ⟨[], (n, t), rest, rfl, by simp, ?_, ?_⟩
      · rw [hq]; simpa using h
      · simp [hq]
    | none, none => exact absurd hq (copyNode_ne_none_none t n)

theorem take_eq_take_min (l : List Nat) (n : Nat) :
    l.take n = l.take (min n l.length) := by
  rcases Nat.le_total n l.length with h | h
  · rw [Nat.min_eq_left h]
  · rw [Nat.min_eq_right h, List.take_of_length_le h,
      List.take_of_length_le (le_refl _)]

theorem utf8Encode_head (cps : List Nat) (h : ∀ c ∈ cps, isScalar c = true) :
    ∀ b ∈ (utf8Encode cps).head?, b < 0x80 ∨ 0xC2 ≤ b := by
  match cps with
  | [] => simp [utf8Encode]
  | c :: rest =>
    have hc : isScalar c = true := h c (by simp)
    have hs : c < 0xD800 ∨ (0xE000 ≤ c ∧ c < 0x110000) := by
      simpa [isScalar, Bool.or_eq_true, Bool.and_eq_true, decide_eq_true_eq]
        using hc
    intro b hb
    simp only [utf8Encode, List.map_cons, List.flatten_cons] at hb
    unfold utf8EncodeChar at hb
    by_cases h1 : c < 0x80
    · rw [if_pos h1] at hb
      simp at hb
      omega
    · rw [if_neg h1] at hb
      by_cases h2 : c < 0x800
      · rw [if_pos h2] at hb
        simp at hb
        omega
      · rw [if_neg h2] at hb
        by_cases h3 : c < 0x10000
        · rw [if_pos h3] at hb
          simp at hb
          omega
        · rw [if_neg h3] at hb
          simp at hb
          omega

theorem cleanupEntries_success (canDelete : String × FsNode → Bool) :
    ∀ es : List (String × FsNode),
      (cleanupEntries canDelete es).2 = 0 → (cleanupEntries canDelete es).1 = [] := by
  intro es
  induction es with
  | nil => intro _; simp [cleanupEntries]
  | cons e rest ih =>
    intro h
    by_cases hd : canDelete e
    · rw [cleanupEntries, if_pos hd] at h ⊢
      exact ih h
    · rw [cleanupEntries, if_neg hd] at h
      simp at h

/-- Claim C5: for every source path with at least one non-empty segment and
every destination root, `fs_utils_destination_directory` returns the
destination root joined with the base name (final non-empty segment) of the
source, with no side effects; for a source with no valid base name (all
segments empty, e.g. "/") it signals an invalid-argument failure. -/
theorem C5_destination_directory (src dst : Path) :
    ((∃ s ∈ src, s ≠ "") →
      ∃ name, basename src = some name ∧
        fs_utils_destination_directory src dst = some (dst ++ [name])) ∧
    ((∀ s ∈ src, s = "") →
      fs_utils_destination_directory src dst = none) := by
  constructor
  · rintro ⟨s, hs, hne⟩
    have hmem : s ∈ src.filter (fun x => x ≠ "") := by
      simp [List.mem_filter, hs, hne]
    have hnil : src.filter (fun x => x ≠ "") ≠ [] := by
      intro hc; rw [hc] at hmem; exact absurd hmem (by simp)
    have hsome : (src.filter (fun x => x ≠ "")).getLast?.isSome := by
      rw [List.getLast?_isSome]; exact hnil
    obtain ⟨name, hname⟩ := Option.isSome_iff_exists.mp hsome
    refine ⟨name, hname, ?_⟩
    unfold fs_utils_destination_directory basename
    rw [hname]
    rfl
  · intro hall
    have hfil : src.filter (fun x => x ≠ "") = [] := by
      apply List.filter_eq_nil_iff.mpr
      intro a ha
      simp [hall a ha]
    unfold fs_utils_destination_directory basename
    rw [hfil]
    rfl

/-- Witness for C5 at the spec's own example: PathComposer("/a/b/src",
"/dst") = "/dst/src", and "/" has no base name. -/
theorem C5_witness :
    (∃ s ∈ (["", "a", "b", "src"] : Path), s ≠ "") ∧
    (∃ name, basename ["", "a", "b", "src"] = some name ∧
      fs_utils_destination_directory ["", "a", "b", "src"] ["", "dst"] =
        some (["", "dst"] ++ [name])) ∧
    fs_utils_destination_directory [""] ["", "dst"] = none :=
  ⟨by simp, (C5_destination_directory ["", "a", "b", "src"] ["", "dst"]).1
      (by simp),
    (C5_destination_directory [""] ["", "dst"]).2 (by simp)⟩

/-- Claim C6: for every readable file and limit, `fs_utils_head` returns
exactly min(limit, file size) bytes equal to the file's first bytes, the
length tag equals the buffer's content length, and decoding is not
performed (the raw bytes are returned); on an unreadable/missing path it
signals failure and returns no buffer. -/
theorem C6_head_raw (content : List Nat) (limit : Nat) :
    fs_utils_head (some content) limit =
      some (content.take limit, min limit content.length) ∧
    (content.take limit).length = min limit content.length ∧
    fs_utils_head none limit = none := by
  refine ⟨?_, List.length_take limit content, rfl⟩
  simp [fs_utils_head, List.length_take]

/-- Claim C10: every pointer-returning head operation returns `none`
(C `NULL`) exactly when the file cannot be read, and a buffer on success;
`fs_utils_head` stores the byte count through its out-parameter only on
success, and that count equals the buffer length. -/
theorem C10_null_discriminates (file : Option (List Nat)) (limit : Nat)
    (msg : List Nat) :
    ((fs_utils_head file limit).isSome ↔ file.isSome) ∧
    ((fs_utils_head_to_string file limit).isSome ↔ file.isSome) ∧
    ((fs_utils_head_to_string_with_message file limit msg).isSome ↔
      file.isSome) ∧
    (∀ b n, fs_utils_head file limit = some (b, n) → n = b.length) := by
  refine ⟨?_, ?_, ?_, ?_⟩ <;> cases file <;>
    simp [fs_utils_head, fs_utils_head_to_string,
      fs_utils_head_to_string_with_message]

/-- Witness for C10 on a concrete 3-byte file read with limit 2. -/
theorem C10_witness :
    fs_utils_head (some [1, 2, 3]) 2 = some ([1, 2], 2) ∧
    (2 : Nat) = ([1, 2] : List Nat).length :=
  ⟨rfl, (C10_null_discriminates (some [1, 2, 3]) 2 []).2.2.2 [1, 2] 2 rfl⟩

/-- Claim C9: when `fs_utils_cleanup_folder` succeeds on a directory, every
direct and transitive child is deleted but the directory itself survives:
afterwards it exists with zero entries and `fs_utils_is_folder_empty`
reports it empty. -/
theorem C9_cleanup_empties (canDelete : String × FsNode → Bool)
    (es : List (String × FsNode))
    (h : (fs_utils_cleanup_folder canDelete (.dir es)).2 = 0) :
    fs_utils_cleanup_folder canDelete (.dir es) = (.dir [], 0) ∧
    fs_utils_is_folder_empty
      (fs_utils_cleanup_folder canDelete (.dir es)).1 = some true := by
  rcases hq : cleanupEntries canDelete es with ⟨rest, code⟩
  rw [fs_utils_cleanup_folder] at h ⊢
  rw [hq] at h ⊢
  simp at h
  subst h
  have : rest = [] := by
    have := cleanupEntries_success canDelete es
    rw [hq] at this
    simpa using this rfl
  subst this
  simp [fs_utils_is_folder_empty]

/-- Witness for C9: cleaning a folder with one file and one subfolder. -/
theorem C9_witness :
    (fs_utils_cleanup_folder (fun _ => true)
      (.dir [("a", FsNode.file [1] true), ("sub", .dir [])])).2 = 0 ∧
    fs_utils_cleanup_folder (fun _ => true)
      (.dir [("a", FsNode.file [1] true), ("sub", .dir [])]) = (.dir [], 0) := by
  have h : (fs_utils_cleanup_folder (fun _ => true)
      (.dir [("a", FsNode.file [1] true), ("sub", .dir [])])).2 = 0 := by
    simp [fs_utils_cleanup_folder, cleanupEntries]
  exact ⟨h, (C9_cleanup_empties _ _ h).1⟩

/-- Claim C1: if the composed destination (destination root joined with the
base name of the source) already exists, `fs_utils_copy_directory` fails
with an "already exists" error, performs no I/O, and leaves the destination
root's entries — including the existing destination — byte-for-byte
unchanged. -/
theorem C1_copy_refuses_existing (srcPath : Path) (srcTree : FsNode)
    (dstPath : Path) (dstEntries : List (String × FsNode)) (name : String)
    (hbase : basename srcPath = some name)
    (hmem : name ∈ dstEntries.map Prod.fst) :
    fs_utils_copy_directory srcPath srcTree dstPath dstEntries =
      (dstEntries, .error ("already exists: " ++ name)) := by
  rw [fs_utils_copy_directory]
  rw [hbase]
  simp only []
  rw [if_pos (by simpa using hmem)]

/-- Witness for C1: destination "dst" already holds an entry "src"; the
copy fails and the state (existing content included) is unchanged. -/
theorem C1_witness :
    basename ["", "a", "src"] = some "src" ∧
    "src" ∈ ([("src", FsNode.file [104, 105] true)].map Prod.fst) ∧
    fs_utils_copy_directory ["", "a", "src"] (.dir []) ["", "dst"]
        [("src", FsNode.file [104, 105] true)] =
      ([("src", FsNode.file [104, 105] true)],
        .error ("already exists: " ++ "src")) :=
  ⟨rfl, by simp,
    C1_copy_refuses_existing ["", "a", "src"] (.dir []) ["", "dst"]
      [("src", FsNode.file [104, 105] true)] "src" rfl (by simp)⟩

/-- Claim C4: when the composed destination does not yet exist and every
file of the source tree is readable, `fs_utils_copy_directory` succeeds,
materialises at the composed destination a tree identical to the source
(same entry names, same structure, byte-for-byte file contents), and
returns the resolved destination path. -/
theorem C4_copy_roundtrip (srcPath : Path) (srcTree : FsNode)
    (dstPath : Path) (dstEntries : List (String × FsNode)) (name : String)
    (hbase : basename srcPath = some name)
    (hnot : name ∉ dstEntries.map Prod.fst)
    (hread : allReadable srcTree) :
    fs_utils_copy_directory srcPath srcTree dstPath dstEntries =
      (dstEntries ++ [(name, srcTree)], .ok (dstPath ++ [name])) := by
  rw [fs_utils_copy_directory]
  rw [hbase]
  simp only []
  rw [if_neg (by simpa using hnot)]
  rw [copyNode_ok srcTree hread name]

/-- Witness for C4 at the spec's example tree {a.txt: "hi", sub/b.txt:
"bye"}: the copy produces an identical tree at "dst/src". -/
theorem C4_witness :
    allReadable (.dir [("a.txt", FsNode.file [104, 105] true),
      ("sub", .dir [("b.txt", FsNode.file [98, 121, 101] true)])]) ∧
    fs_utils_copy_directory ["", "a", "src"]
        (.dir [("a.txt", FsNode.file [104, 105] true),
          ("sub", .dir [("b.txt", FsNode.file [98, 121, 101] true)])])
        ["", "dst"] [] =
      ([("src", .dir [("a.txt", FsNode.file [104, 105] true),
          ("sub", .dir [("b.txt", FsNode.file [98, 121, 101] true)])])],
        .ok ["", "dst", "src"]) := by
  have hr : allReadable (.dir [("a.txt", FsNode.file [104, 105] true),
      ("sub", .dir [("b.txt", FsNode.file [98, 121, 101] true)])]) := by
    simp [allReadable]
  exact ⟨hr, C4_copy_roundtrip ["", "a", "src"] _ ["", "dst"] [] "src" rfl
    (by simp) hr⟩

/-- Claim C8: the outcome of `fs_utils_copy_directory` is a tagged sum: it
exposes exactly one of a success value (the resolved destination path) or a
failure value (an error description), never both. -/
theorem C8_result_exclusive (srcPath : Path) (srcTree : FsNode)
    (dstPath : Path) (dstEntries : List (String × FsNode)) :
    (∃ p, (fs_utils_copy_directory srcPath srcTree dstPath dstEntries).2 =
        .ok p ∧
      ∀ e, (fs_utils_copy_directory srcPath srcTree dstPath dstEntries).2 ≠
        .error e) ∨
    (∃ e, (fs_utils_copy_directory srcPath srcTree dstPath dstEntries).2 =
        .error e ∧
      ∀ p, (fs_utils_copy_directory srcPath srcTree dstPath dstEntries).2 ≠
        .ok p) := by
  cases h : (fs_utils_copy_directory srcPath srcTree dstPath dstEntries).2 with
  | ok p => exact Or.inl ⟨p, rfl, by simp⟩
  | error e => exact Or.inr ⟨e, rfl, by simp⟩

/-- Claim C7: when copying some entry fails partway through the tree,
`fs_utils_copy_directory` stops and reports a single failure naming the
first failing entry, and the entries copied before the failure remain in
place at the destination (no rollback): the destination tree consists of
exactly the successfully copied prefix, plus the partially copied failing
entry, and nothing after it. -/
theorem C7_partial_failure (srcPath : Path)
    (es : List (String × FsNode)) (dstPath : Path)
    (dstEntries : List (String × FsNode)) (name e0 : String)
    (hbase : basename srcPath = some name)
    (hnot : name ∉ dstEntries.map Prod.fst)
    (hfail : (copyEntries es).2 = some e0) :
    fs_utils_copy_directory srcPath (.dir es) dstPath dstEntries =
      (dstEntries ++ [(name, .dir (copyEntries es).1)],
        .error (name ++ "/" ++ e0)) ∧
    ∃ pre x post, es = pre ++ x :: post ∧
      (∀ e ∈ pre, (copyNode e.1 e.2).2 = none) ∧
      (copyNode x.1 x.2).2 = some e0 ∧
      (copyEntries es).1 =
        pre ++ (copyNode x.1 x.2).1.toList.map (fun nd => (x.1, nd)) := by
  refine ⟨?_, copyEntries_fail es e0 hfail⟩
  rw [fs_utils_copy_directory]
  rw [hbase]
  simp only []
  rw [if_neg (by simpa using hnot)]
  rcases hq : copyEntries es with ⟨es', oe⟩
  rw [hq] at hfail
  simp at hfail
  subst hfail
  rw [copyNode]
  rw [hq]
  simp

/-- Witness for C7: the second of three entries is unreadable; the first
entry is copied and stays, the error names the failing entry, the third is
never copied. -/
theorem C7_witness :
    (copyEntries [("ok.txt", FsNode.file [1] true),
      ("bad.txt", FsNode.file [2] false),
      ("later.txt", FsNode.file [3] true)]).2 = some "bad.txt" ∧
    fs_utils_copy_directory ["", "a", "src"]
        (.dir [("ok.txt", FsNode.file [1] true),
          ("bad.txt", FsNode.file [2] false),
          ("later.txt", FsNode.file [3] true)])
        ["", "dst"] [] =
      ([("src", .dir (copyEntries [("ok.txt", FsNode.file [1] true),
          ("bad.txt", FsNode.file [2] false),
          ("later.txt", FsNode.file [3] true)]).1)],
        .error ("src" ++ "/" ++ "bad.txt")) := by
  have h : (copyEntries [("ok.txt", FsNode.file [1] true),
      ("bad.txt", FsNode.file [2] false),
      ("later.txt", FsNode.file [3] true)]).2 = some "bad.txt" := by
    simp [copyEntries, copyNode]
  exact ⟨h, (C7_partial_failure ["", "a", "src"] _ ["", "dst"] [] "src"
    "bad.txt" rfl (by simp) h).1⟩

/-- Claim C2: `fs_utils_head_to_string` returns the UTF-8 decoding — with
maximal-subpart substitution, one U+FFFD per maximal subpart of an
ill-formed subsequence, not one per invalid byte — of the first
min(limit, file size) bytes; an incomplete multi-byte sequence cut at the
limit boundary becomes a single trailing U+FFFD (also when further valid
text follows an incomplete sequence inside the window, it gets exactly one
U+FFFD), and the output consists only of Unicode scalar values (valid
UTF-8) even when the source bytes were not. -/
theorem C2_head_to_string_utf8 (content : List Nat) (limit : Nat) :
    fs_utils_head_to_string (some content) limit =
      some (utf8DecodeLossy (content.take (min limit content.length))) ∧
    (∀ c ∈ utf8DecodeLossy (content.take limit), isScalar c = true) ∧
    (∀ cps t, (∀ c ∈ cps, isScalar c = true) → IsIncomplete t →
      content.take limit = utf8Encode cps ++ t →
      fs_utils_head_to_string (some content) limit =
        some (cps ++ [0xFFFD])) ∧
    (∀ cps1 t cps2, (∀ c ∈ cps1, isScalar c = true) →
      (∀ c ∈ cps2, isScalar c = true) → IsIncomplete t →
      content.take limit = utf8Encode cps1 ++ (t ++ utf8Encode cps2) →
      fs_utils_head_to_string (some content) limit =
        some (cps1 ++ 0xFFFD :: cps2)) := by
  refine ⟨?_, utf8DecodeLossy_valid _, ?_, ?_⟩
  · rw [fs_utils_head_to_string, Option.map_some', ← take_eq_take_min]
  · intro cps t hs hinc heq
    rw [fs_utils_head_to_string, Option.map_some', heq,
      utf8DecodeLossy_encode_append cps hs t, utf8DecodeLossy_incomplete t hinc]
  · intro cps1 t cps2 hs1 hs2 hinc heq
    rw [fs_utils_head_to_string, Option.map_some', heq,
      utf8DecodeLossy_encode_append cps1 hs1,
      utf8DecodeLossy_incomplete_append t _ hinc (utf8Encode_head cps2 hs2)]
    have h2 : utf8DecodeLossy (utf8Encode cps2) = cps2 := by
      have := utf8DecodeLossy_encode_append cps2 hs2 []
      rw [List.append_nil, utf8DecodeLossy_nil, List.append_nil] at this
      exact this
    rw [h2]

/-- Witness for C2 on the file "a"+"€" cut at limit 3: the truncated euro
sign collapses to a single trailing U+FFFD. -/
theorem C2_witness :
    (∀ c ∈ ([0x61] : List Nat), isScalar c = true) ∧
    IsIncomplete [0xE2, 0x82] ∧
    ([0x61, 0xE2, 0x82, 0xAC] : List Nat).take 3 =
      utf8Encode [0x61] ++ [0xE2, 0x82] ∧
    fs_utils_head_to_string (some [0x61, 0xE2, 0x82, 0xAC]) 3 =
      some [0x61, 0xFFFD] := by
  have hinc : IsIncomplete [0xE2, 0x82] :=
    ⟨Or.inl (by norm_num), by norm_num [cont2lo], by norm_num [cont2hi]⟩
  exact ⟨by decide, hinc, by decide,
    (C2_head_to_string_utf8 [0x61, 0xE2, 0x82, 0xAC] 3).2.2.1 [0x61]
      [0xE2, 0x82] (by decide) hinc (by decide)⟩

/-- Claim C3: `fs_utils_head_to_string_with_message` appends the
caller-supplied truncation message after the decoded text iff the file's
total size exceeds the limit; when the size is at most the limit, the
result is the decoded whole file, unmodified. -/
theorem C3_message_iff_truncated (content : List Nat) (limit : Nat)
    (msg : List Nat) :
    (content.length ≤ limit →
      fs_utils_head_to_string_with_message (some content) limit msg =
        some (utf8DecodeLossy content)) ∧
    (limit < content.length →
      fs_utils_head_to_string_with_message (some content) limit msg =
        some (utf8DecodeLossy (content.take limit) ++ msg)) := by
  constructor
  · intro h
    rw [fs_utils_head_to_string_with_message, Option.map_some',
      if_neg (by omega), List.take_of_length_le h, List.append_nil]
  · intro h
    rw [fs_utils_head_to_string_with_message, Option.map_some', if_pos h]

/-- Witness for C3: a 5-byte file with limit 10 gets no message; a 12-byte
file with limit 10 gets the message appended right after the decoded
prefix. -/
theorem C3_witness :
    ([104, 101, 108, 108, 111] : List Nat).length ≤ 10 ∧
    fs_utils_head_to_string_with_message
        (some [104, 101, 108, 108, 111]) 10 [46, 46, 46] =
      some (utf8DecodeLossy [104, 101, 108, 108, 111]) ∧
    (10 : Nat) < ([65, 66, 67, 68, 69, 70, 71, 72, 73, 74, 75, 76] :
      List Nat).length ∧
    fs_utils_head_to_string_with_message
        (some [65, 66, 67, 68, 69, 70, 71, 72, 73, 74, 75, 76]) 10 [46] =
      some (utf8DecodeLossy
        (([65, 66, 67, 68, 69, 70, 71, 72, 73, 74, 75, 76] :
          List Nat).take 10) ++ [46]) :=
  ⟨by decide,
    (C3_message_iff_truncated [104, 101, 108, 108, 111] 10 [46, 46, 46]).1
      (by decide),
    by decide,
    (C3_message_iff_truncated
      [65, 66, 67, 68, 69, 70, 71, 72, 73, 74, 75, 76] 10 [46]).2
      (by decide)⟩

end FsUtils
